import Mathlib

/-!
Verification of the minimalistic optimistic-rollup verifier (`src/main.rs`).

The Rust program keeps ledger balances in a `HashMap<u64, u64>`.  We embed the
map as an association list with first-occurrence semantics: `hmGet` returns the
value at the first occurrence of a key, `hmInsert` overwrites the first
occurrence (or appends a fresh entry), exactly the observable behaviour of the
Rust map operations used by the program.  Equality of two maps (Rust `==` on
`HashMap`, which is insertion-order independent) is embedded as `hmEq`:
lengths agree and every entry of the left map is found in the right map.
Machine integers (`u64`) are embedded as `Nat`; the program's only subtraction
sites are guarded (`sender_balance >= tx.amount`) or saturating
(`saturating_sub`), which is truncated `Nat` subtraction, so no modular
reduction is needed on the modelled domain.  Panicking accesses
(out-of-bounds indexing of blocks or transactions, clock readings in the
future) are outside the modelled domain; theorems carry the corresponding
in-bounds hypotheses.
-/

/-- `struct Transaction { from, to, amount }`.  Rust's type aliases
`Address = u64`, `Balance = u64` and `BlockNumber = u64` are all embedded as
plain `Nat` (a type synonym would hide the `Nat` structure from arithmetic
automation). -/
structure Transaction where
  «from» : Nat
  «to» : Nat
  amount : Nat
deriving DecidableEq

/-- Entries of the balances map (address-balance pairs), in first-occurrence
(HashMap) semantics. -/
abbrev Balances : Type := List (Nat × Nat)

/-- `HashMap::get` — value at the first occurrence of key `k`. -/
def hmGet : Balances → Nat → Option Nat
  | [], _ => none
  | (a, v) :: rest, k => if a = k then some v else hmGet rest k

/-- `HashMap::insert` (also `entry(k).or_default()` followed by assignment):
overwrite the first occurrence of `k`, or append a fresh entry. -/
def hmInsert : Balances → Nat → Nat → Balances
  | [], k, v => [(k, v)]
  | (a, w) :: rest, k, v =>
      if a = k then (a, v) :: rest else (a, w) :: hmInsert rest k v

/-- Rust `==` on `HashMap`: same length and every entry of the left map is
present with the same value in the right map. -/
def hmEq (m₁ m₂ : Balances) : Bool :=
  m₁.length == m₂.length && m₁.all (fun kv => hmGet m₂ kv.1 == some kv.2)

/-- Sum of all balances stored in the map. -/
def totalBalance (m : Balances) : Nat :=
  (m.map Prod.snd).sum

/-- `struct State { balances: HashMap<Address, Balance> }`. -/
structure State where
  balances : Balances
deriving DecidableEq

/-- `State::new`. -/
def State.new : State := ⟨[]⟩

/-- `State::apply_tx`: returns the Rust `bool` result together with the state
after the call (the Rust method mutates `self`). -/
def State.apply_tx (s : State) (tx : Transaction) : Bool × State :=
  let sender_balance := (hmGet s.balances tx.«from»).getD 0
  if tx.amount ≤ sender_balance then
    let b₁ := hmInsert s.balances tx.«from» (sender_balance - tx.amount)
    let b₂ := hmInsert b₁ tx.«to» ((hmGet b₁ tx.«to»).getD 0 + tx.amount)
    (true, ⟨b₂⟩)
  else
    (false, s)

/-! ### Basic lemmas about the map model -/

theorem hmGet_hmInsert_self (m : Balances) (k v : Nat) :
    hmGet (hmInsert m k v) k = some v := by
  induction m with
  | nil => simp [hmInsert, hmGet]
  | cons hd tl ih =>
      obtain ⟨a, w⟩ := hd
      by_cases h : a = k <;> simp [hmInsert, hmGet, h, ih]

theorem hmGet_hmInsert_ne (m : Balances) {k k' : Nat} (v : Nat)
    (h : k ≠ k') : hmGet (hmInsert m k v) k' = hmGet m k' := by
  induction m with
  | nil => simp [hmInsert, hmGet, h]
  | cons hd tl ih =>
      obtain ⟨a, w⟩ := hd
      by_cases ha : a = k
      · subst ha
        simp [hmInsert, hmGet, h]
      · simp [hmInsert, hmGet, ha, ih]

theorem hmInsert_hmInsert_self (m : Balances) (k v w : Nat) :
    hmInsert (hmInsert m k v) k w = hmInsert m k w := by
  induction m with
  | nil => simp [hmInsert]
  | cons hd tl ih =>
      obtain ⟨a, u⟩ := hd
      by_cases h : a = k <;> simp [hmInsert, h, ih]

theorem hmInsert_eq_self (m : Balances) {k v : Nat}
    (h : hmGet m k = some v) : hmInsert m k v = m := by
  induction m with
  | nil => simp [hmGet] at h
  | cons hd tl ih =>
      obtain ⟨a, w⟩ := hd
      by_cases ha : a = k
      · subst ha
        simp [hmGet] at h
        simp [hmInsert, h]
      · simp [hmGet, ha] at h
        simp [hmInsert, ha, ih h]

theorem isSome_hmGet_hmInsert (m : Balances) (k k' v : Nat)
    (h : (hmGet m k').isSome = true) :
    (hmGet (hmInsert m k v) k').isSome = true := by
  by_cases hk : k = k'
  · subst hk; simp [hmGet_hmInsert_self]
  · rwa [hmGet_hmInsert_ne m v hk]

theorem totalBalance_hmInsert (m : Balances) (k v : Nat) :
    totalBalance (hmInsert m k v) + (hmGet m k).getD 0 = totalBalance m + v := by
  induction m with
  | nil => simp [hmInsert, hmGet, totalBalance]
  | cons hd tl ih =>
      obtain ⟨a, w⟩ := hd
      by_cases h : a = k
      · simp [hmInsert, hmGet, h, totalBalance]
        omega
      · simp [hmInsert, hmGet, h, totalBalance] at ih ⊢
        omega

/-! ### The verifier data model -/

/-- `struct RollupBlock`. -/
structure RollupBlock where
  block_number : Nat
  transactions : List Transaction
  post_state : State
  committed : Bool
deriving DecidableEq

/-- `struct FraudChallenge`. -/
structure FraudChallenge where
  block_number : Nat
  tx_index : Nat
  challenger : Nat
  time : Nat
  valid : Option Bool
deriving DecidableEq

/-- `struct L1Verifier`.  The `VecDeque` of pending challenges is a list whose
head is the front of the queue. -/
structure L1Verifier where
  time : Nat
  blocks : List RollupBlock
  challenges : List FraudChallenge
  resolved_challenges : List FraudChallenge
  challenge_timeout : Nat
  initial_state : Option State
deriving DecidableEq

/-- `L1Verifier::new(timeout)`. -/
def L1Verifier.new (timeout : Nat) : L1Verifier :=
  ⟨0, [], [], [], timeout, none⟩

/-- One iteration of the reverse loop in `L1Verifier::submit_block`: undo a
transaction on the claimed post-state (`saturating_sub` on the receiver if the
receiver has an entry, additive credit on the sender, inserting it if absent). -/
def undoTx (s : State) (tx : Transaction) : State :=
  let b₁ :=
    match hmGet s.balances tx.«to» with
    | some to_balance => hmInsert s.balances tx.«to» (to_balance - tx.amount)
    | none => s.balances
  ⟨hmInsert b₁ tx.«from» ((hmGet b₁ tx.«from»).getD 0 + tx.amount)⟩

/-- The baseline snapshot `L1Verifier::submit_block` derives from the first
block: the claimed post-state with the block's transactions undone in reverse
order. -/
def deriveBaseline (block : RollupBlock) : State :=
  block.transactions.reverse.foldl undoTx block.post_state

/-- `L1Verifier::submit_block` (minus the log line, which carries no state). -/
def L1Verifier.submit_block (v : L1Verifier) (block : RollupBlock) : L1Verifier :=
  let v' :=
    if v.blocks.isEmpty then
      { v with initial_state := some (deriveBaseline block) }
    else v
  { v' with blocks := v'.blocks ++ [block] }

/-- `L1Verifier::submit_challenge` (minus the log line): push to the back of
the pending queue. -/
def L1Verifier.submit_challenge (v : L1Verifier) (challenge : FraudChallenge) :
    L1Verifier :=
  { v with challenges := v.challenges ++ [challenge] }

/-- Apply a list of transactions in order with `State::apply_tx`, discarding
each success/failure flag — the inner loop of `L1Verifier::reconstruct_state`. -/
def applyTxs (s : State) (txs : List Transaction) : State :=
  txs.foldl (fun st tx => (st.apply_tx tx).2) s

/-- `L1Verifier::reconstruct_state`: start from the stored baseline (empty
state when none is stored) and apply, in order, every transaction of every
block at a position strictly below `upto_block`, discarding each
success/failure flag. -/
def L1Verifier.reconstruct_state (v : L1Verifier) (upto_block : Nat) :
    State :=
  (v.blocks.take upto_block).foldl
    (fun st b => applyTxs st b.transactions)
    (v.initial_state.getD State.new)

/-- Placeholder `RollupBlock` used to totalise the panicking index
`self.blocks[challenge.block_number]`; theorems restrict to in-bounds inputs. -/
def defaultBlock : RollupBlock := ⟨0, [], State.new, true⟩

/-- Placeholder `Transaction` used to totalise the panicking index
`block.transactions[challenge.tx_index]`; theorems restrict to in-bounds
inputs. -/
def defaultTransaction : Transaction := ⟨0, 0, 0⟩

/-- The adjudication verdict computed when `L1Verifier::process_challenges`
dequeues `challenge`: reconstruct the pre-state at the target block number,
apply the disputed transaction (selected by `tx_index`) to a copy of it, and
return `true` iff the application succeeded `&&` the resulting balances map
equals (Rust `==`) the target block's claimed post-state balances map. -/
def adjudicate (v : L1Verifier) (challenge : FraudChallenge) : Bool :=
  let block := v.blocks.getD challenge.block_number defaultBlock
  let pre_state := v.reconstruct_state challenge.block_number
  let tx := block.transactions.getD challenge.tx_index defaultTransaction
  let applied := pre_state.apply_tx tx
  applied.1 && hmEq applied.2.balances block.post_state.balances

/-- The body of one iteration of the `while let` loop in
`L1Verifier::process_challenges`, for the front challenge `challenge` already
known to have timed out, `rest` being the remainder of the queue: pop it,
compute `valid := adjudicate v challenge`, append the challenge with outcome
`Some valid` to the resolved log, and on `valid = false` clear the target
block's `committed` flag. -/
def resolveStep (v : L1Verifier) (challenge : FraudChallenge)
    (rest : List FraudChallenge) : L1Verifier :=
  let block := v.blocks.getD challenge.block_number defaultBlock
  let valid := adjudicate v challenge
  let blocks' :=
    if valid then v.blocks
    else v.blocks.set challenge.block_number { block with committed := false }
  { v with
      challenges := rest
      resolved_challenges :=
        v.resolved_challenges ++ [{ challenge with valid := some valid }]
      blocks := blocks' }

/-- The `while let` loop of `L1Verifier::process_challenges`, with an explicit
fuel bound on the number of iterations: inspect the front of the pending
queue; if the front challenge has timed out
(`time - challenge.time >= challenge_timeout`), pop and resolve it and loop;
stop as soon as the front has not timed out (or the queue is empty).  Each
iteration pops exactly one challenge, so `processLoop` with fuel equal to the
queue length is the Rust loop (`processLoop_fuel_irrel` below shows any fuel
at least the queue length gives the same result). -/
def processLoop : Nat → L1Verifier → L1Verifier
  | 0, v => v
  | fuel + 1, v =>
      match v.challenges with
      | [] => v
      | challenge :: rest =>
          if v.challenge_timeout ≤ v.time - challenge.time then
            processLoop fuel (resolveStep v challenge rest)
          else v

/-- `L1Verifier::process_challenges`. -/
def L1Verifier.process_challenges (v : L1Verifier) : L1Verifier :=
  processLoop v.challenges.length v

/-- `L1Verifier::advance_time`. -/
def L1Verifier.advance_time (v : L1Verifier) (ticks : Nat) : L1Verifier :=
  L1Verifier.process_challenges { v with time := v.time + ticks }

/-! ### Shape lemmas for the resolution loop -/

theorem resolveStep_challenges_eq (v : L1Verifier) (c : FraudChallenge)
    (rest : List FraudChallenge) : (resolveStep v c rest).challenges = rest := rfl

theorem resolveStep_resolved_eq (v : L1Verifier) (c : FraudChallenge)
    (rest : List FraudChallenge) :
    (resolveStep v c rest).resolved_challenges =
      v.resolved_challenges ++ [{ c with valid := some (adjudicate v c) }] := rfl

theorem resolveStep_blocks_eq (v : L1Verifier) (c : FraudChallenge)
    (rest : List FraudChallenge) :
    (resolveStep v c rest).blocks =
      if adjudicate v c then v.blocks
      else v.blocks.set c.block_number
        { v.blocks.getD c.block_number defaultBlock with committed := false } := rfl

theorem resolveStep_time_eq (v : L1Verifier) (c : FraudChallenge)
    (rest : List FraudChallenge) : (resolveStep v c rest).time = v.time := rfl

/-- Fuel is irrelevant once it covers the queue length: one more unit of fuel
than the queue length never changes the result, because every iteration pops
exactly one challenge. -/
theorem processLoop_succ_of_le (fuel : Nat) :
    ∀ v : L1Verifier, v.challenges.length ≤ fuel →
      processLoop (fuel + 1) v = processLoop fuel v := by
  induction fuel with
  | zero =>
      intro v hv
      have hnil : v.challenges = [] := List.length_eq_zero.mp (Nat.le_zero.mp hv)
      simp [processLoop, hnil]
  | succ fuel ih =>
      intro v hv
      cases hc : v.challenges with
      | nil => simp [processLoop, hc]
      | cons c rest =>
          by_cases hm : v.challenge_timeout ≤ v.time - c.time
          · have h1 : processLoop (fuel + 1 + 1) v =
                processLoop (fuel + 1) (resolveStep v c rest) := by
              simp [processLoop, hc, hm]
            have h2 : processLoop (fuel + 1) v =
                processLoop fuel (resolveStep v c rest) := by
              simp [processLoop, hc, hm]
            rw [h1, h2]
            apply ih
            rw [resolveStep_challenges_eq]
            rw [hc] at hv
            simp only [List.length_cons] at hv
            omega
          · simp [processLoop, hc, hm]

/-- Any fuel at least the queue length computes `process_challenges`. -/
theorem processLoop_fuel_irrel (fuel : Nat) :
    ∀ v : L1Verifier, v.challenges.length ≤ fuel →
      processLoop fuel v = v.process_challenges := by
  induction fuel with
  | zero =>
      intro v hv
      unfold L1Verifier.process_challenges
      rw [Nat.le_zero.mp hv]
  | succ fuel ih =>
      intro v hv
      rcases Nat.lt_or_ge v.challenges.length (fuel + 1) with h | h
      · rw [processLoop_succ_of_le fuel v (Nat.lt_succ_iff.mp h)]
        exact ih v (Nat.lt_succ_iff.mp h)
      · have he : v.challenges.length = fuel + 1 := Nat.le_antisymm hv h
        unfold L1Verifier.process_challenges
        rw [he]

/-- The loop only appends to the resolved log, and every entry it appends has
its outcome set to `Some _`. -/
theorem processLoop_resolved_append (fuel : Nat) :
    ∀ v : L1Verifier, ∃ l : List FraudChallenge,
      (processLoop fuel v).resolved_challenges = v.resolved_challenges ++ l ∧
      ∀ c ∈ l, (FraudChallenge.valid c).isSome = true := by
  induction fuel with
  | zero => intro v; exact ⟨[], by simp [processLoop], by simp⟩
  | succ fuel ih =>
      intro v
      cases hc : v.challenges with
      | nil => exact ⟨[], by simp [processLoop, hc], by simp⟩
      | cons c rest =>
          by_cases hm : v.challenge_timeout ≤ v.time - c.time
          · obtain ⟨l, hl, hall⟩ := ih (resolveStep v c rest)
            refine ⟨{ c with valid := some (adjudicate v c) } :: l, ?_, ?_⟩
            · have hstep : processLoop (fuel + 1) v =
                  processLoop fuel (resolveStep v c rest) := by
                simp [processLoop, hc, hm]
              rw [hstep, hl, resolveStep_resolved_eq]
              simp
            · intro d hd
              rcases List.mem_cons.mp hd with h | h
              · subst h; rfl
              · exact hall d h
          · exact ⟨[], by simp [processLoop, hc, hm], by simp⟩

/-- The loop never lengthens or shortens the block log, and never turns a
block's `committed` flag from `false` back to `true`. -/
theorem processLoop_committed_mono (fuel : Nat) :
    ∀ (v : L1Verifier) (i : Nat) (b b' : RollupBlock),
      v.blocks[i]? = some b →
      (processLoop fuel v).blocks[i]? = some b' →
      b.committed = false → b'.committed = false := by
  induction fuel with
  | zero =>
      intro v i b b' hb hb' hf
      simp only [processLoop] at hb'
      rw [hb] at hb'
      cases hb'
      exact hf
  | succ fuel ih =>
      intro v i b b' hb hb' hf
      rcases hc : v.challenges with _ | ⟨c, rest⟩
      · rw [show processLoop (fuel + 1) v = v by simp [processLoop, hc]] at hb'
        rw [hb] at hb'
        cases hb'
        exact hf
      · by_cases hm : v.challenge_timeout ≤ v.time - c.time
        · have hstep : processLoop (fuel + 1) v =
              processLoop fuel (resolveStep v c rest) := by
            simp [processLoop, hc, hm]
          rw [hstep] at hb'
          -- find the intermediate block at index i after the step
          have hmid : ∃ bmid : RollupBlock,
              (resolveStep v c rest).blocks[i]? = some bmid ∧
              bmid.committed = false := by
            rw [resolveStep_blocks_eq]
            by_cases hv : adjudicate v c
            · exact ⟨b, by simp only [hv, if_pos]; exact hb, hf⟩
            · by_cases hi : c.block_number = i
              · subst hi
                have hlt : c.block_number < v.blocks.length := by
                  by_contra hge
                  rw [List.getElem?_eq_none (Nat.le_of_not_lt hge)] at hb
                  cases hb
                exact ⟨_, by
                  simp only [hv, if_neg, Bool.false_eq_true, not_false_iff,
                    if_false]
                  exact List.getElem?_set_eq_of_lt _ hlt, rfl⟩
              · refine ⟨b, ?_, hf⟩
                simp only [hv, Bool.false_eq_true, if_false]
                rw [List.getElem?_set_ne hi]
                exact hb
          obtain ⟨bmid, hbmid, hbf⟩ := hmid
          exact ih (resolveStep v c rest) i bmid b' hbmid hb' hbf
        · rw [show processLoop (fuel + 1) v = v by simp [processLoop, hc, hm]] at hb'
          rw [hb] at hb'
          cases hb'
          exact hf

/-- If the front of the queue has not yet timed out, the pass changes
nothing. -/
theorem process_challenges_front_immature (v : L1Verifier) (c : FraudChallenge)
    (rest : List FraudChallenge) (hc : v.challenges = c :: rest)
    (hm : v.time - c.time < v.challenge_timeout) :
    v.process_challenges = v := by
  unfold L1Verifier.process_challenges
  rw [hc]
  simp [processLoop, hc, Nat.not_le.mpr hm]

/-! ### Lemmas about `State::apply_tx` -/

theorem apply_tx_fst_iff (s : State) (tx : Transaction) :
    (s.apply_tx tx).1 = true ↔
      tx.amount ≤ (hmGet s.balances tx.«from»).getD 0 := by
  unfold State.apply_tx
  by_cases h : tx.amount ≤ (hmGet s.balances tx.«from»).getD 0 <;> simp [h]

theorem apply_tx_of_le (s : State) (tx : Transaction)
    (h : tx.amount ≤ (hmGet s.balances tx.«from»).getD 0) :
    s.apply_tx tx =
      (true,
        ⟨hmInsert (hmInsert s.balances tx.«from»
            ((hmGet s.balances tx.«from»).getD 0 - tx.amount)) tx.«to»
          ((hmGet (hmInsert s.balances tx.«from»
              ((hmGet s.balances tx.«from»).getD 0 - tx.amount)) tx.«to»).getD 0
            + tx.amount)⟩) := by
  unfold State.apply_tx
  simp [h]

theorem apply_tx_of_lt (s : State) (tx : Transaction)
    (h : (hmGet s.balances tx.«from»).getD 0 < tx.amount) :
    s.apply_tx tx = (false, s) := by
  unfold State.apply_tx
  simp [Nat.not_le.mpr h]

/-- C4: a transfer whose sender balance (zero if absent) is strictly below the
amount fails and returns the state unchanged. -/
theorem apply_tx_insufficient (s : State) (tx : Transaction)
    (h : (hmGet s.balances tx.«from»).getD 0 < tx.amount) :
    s.apply_tx tx = (false, s) :=
  apply_tx_of_lt s tx h

/-- Witness for `apply_tx_insufficient` at a concrete input. -/
theorem apply_tx_insufficient_witness :
    (hmGet (⟨[(1, 100), (2, 50)]⟩ : State).balances
        (Transaction.mk 1 2 1000).«from»).getD 0 < (Transaction.mk 1 2 1000).amount ∧
    (⟨[(1, 100), (2, 50)]⟩ : State).apply_tx ⟨1, 2, 1000⟩ =
      (false, ⟨[(1, 100), (2, 50)]⟩) :=
  ⟨by decide, apply_tx_insufficient ⟨[(1, 100), (2, 50)]⟩ ⟨1, 2, 1000⟩ (by decide)⟩

/-- C5: the sum of all balances in the map is unchanged by `apply_tx` —
a successful transfer debits and credits the same amount and a failed one
leaves the map untouched — and therefore by any sequence of applied
transfers. -/
theorem apply_tx_conservation :
    (∀ (s : State) (tx : Transaction),
      totalBalance ((s.apply_tx tx).2.balances) = totalBalance s.balances) ∧
    (∀ (s : State) (txs : List Transaction),
      totalBalance ((applyTxs s txs).balances) = totalBalance s.balances) := by
  have hone : ∀ (s : State) (tx : Transaction),
      totalBalance ((s.apply_tx tx).2.balances) = totalBalance s.balances := by
    intro s tx
    by_cases h : tx.amount ≤ (hmGet s.balances tx.«from»).getD 0
    · rw [apply_tx_of_le s tx h]
      dsimp only
      have h₁ := totalBalance_hmInsert s.balances tx.«from»
        ((hmGet s.balances tx.«from»).getD 0 - tx.amount)
      have h₂ := totalBalance_hmInsert
        (hmInsert s.balances tx.«from»
          ((hmGet s.balances tx.«from»).getD 0 - tx.amount)) tx.«to»
        ((hmGet (hmInsert s.balances tx.«from»
            ((hmGet s.balances tx.«from»).getD 0 - tx.amount)) tx.«to»).getD 0
          + tx.amount)
      omega
    · rw [apply_tx_of_lt s tx (Nat.not_le.mp h)]
  refine ⟨hone, fun s txs => ?_⟩
  induction txs generalizing s with
  | nil => rfl
  | cons tx rest ih =>
      calc totalBalance ((applyTxs s (tx :: rest)).balances)
          = totalBalance ((applyTxs (s.apply_tx tx).2 rest).balances) := rfl
        _ = totalBalance ((s.apply_tx tx).2.balances) := ih _
        _ = totalBalance s.balances := hone s tx

/-- C10: a successful transfer can change the balances map structurally while
changing no account's effective balance: a zero-amount self-transfer from an
absent account succeeds and inserts an explicit zero entry, so the map
equality used by challenge adjudication (`hmEq`, Rust `==`) distinguishes
states that agree as functions from accounts to balances. -/
theorem apply_tx_structural_not_extensional :
    ((State.new.apply_tx ⟨5, 5, 0⟩).1 = true) ∧
    (State.new.apply_tx ⟨5, 5, 0⟩).2 ≠ State.new ∧
    hmEq ((State.new.apply_tx ⟨5, 5, 0⟩).2.balances) State.new.balances = false ∧
    ∀ k : Nat,
      (hmGet ((State.new.apply_tx ⟨5, 5, 0⟩).2.balances) k).getD 0 =
        (hmGet State.new.balances k).getD 0 := by
  refine ⟨by decide, by decide, by decide, ?_⟩
  intro k
  by_cases h : (5 : Nat) = k <;>
    simp [State.new, State.apply_tx, hmGet, hmInsert, h]

/-! ### Concrete fixtures (the scenario of `main()` in `src/main.rs`) -/

/-- The starting balances `{1: 100, 2: 50}` of `main()`. -/
def exState : State := ⟨[(1, 100), (2, 50)]⟩

/-- `tx1` of `main()`: a funded transfer. -/
def exTx1 : Transaction := ⟨1, 2, 40⟩

/-- `tx2` of `main()`: an underfunded transfer. -/
def exTx2 : Transaction := ⟨1, 2, 1000⟩

/-- The block of `main()`: both transactions with the post-state obtained by
applying them (the second application fails and is silently dropped). -/
def exBlock : RollupBlock := ⟨0, [exTx1, exTx2], applyTxs exState [exTx1, exTx2], true⟩

/-- The verifier of `main()` right before `advance_time(6)`: timeout 5, the
block submitted, and a challenge against `tx2` pending. -/
def exVerifier : L1Verifier :=
  ((L1Verifier.new 5).submit_block exBlock).submit_challenge ⟨0, 1, 42, 0, none⟩

/-! ### C1: adjudication of a dequeued challenge -/

/-- C1: when the resolution pass dequeues a challenge (with an in-bounds block
number and transaction index), the resolved entry appended to the resolved log
carries `valid = Some b` where `b = true` iff applying the disputed transaction
to a copy of the reconstructed pre-state succeeded and the resulting balances
map equals (Rust `==`) the target block's claimed post-state balances map;
on `valid = false` the target block's `committed` flag is cleared, on
`valid = true` the block log is left unchanged. -/
theorem resolveStep_adjudication (v : L1Verifier) (challenge : FraudChallenge)
    (rest : List FraudChallenge)
    (hb : challenge.block_number < v.blocks.length)
    (ht : challenge.tx_index <
      (v.blocks.getD challenge.block_number defaultBlock).transactions.length) :
    (adjudicate v challenge = true ↔
      ((v.reconstruct_state challenge.block_number).apply_tx
          ((v.blocks.getD challenge.block_number defaultBlock).transactions.getD
            challenge.tx_index defaultTransaction)).1 = true ∧
        hmEq ((v.reconstruct_state challenge.block_number).apply_tx
            ((v.blocks.getD challenge.block_number defaultBlock).transactions.getD
              challenge.tx_index defaultTransaction)).2.balances
          (v.blocks.getD challenge.block_number defaultBlock).post_state.balances
          = true) ∧
    (resolveStep v challenge rest).resolved_challenges =
      v.resolved_challenges ++
        [{ challenge with valid := some (adjudicate v challenge) }] ∧
    (adjudicate v challenge = true →
      (resolveStep v challenge rest).blocks = v.blocks) ∧
    (adjudicate v challenge = false →
      (resolveStep v challenge rest).blocks =
        v.blocks.set challenge.block_number
          { v.blocks.getD challenge.block_number defaultBlock with
              committed := false }) := by
  refine ⟨?_, resolveStep_resolved_eq v challenge rest, ?_, ?_⟩
  · simp only [adjudicate, Bool.and_eq_true]
  · intro hv
    rw [resolveStep_blocks_eq, hv]
    rfl
  · intro hv
    rw [resolveStep_blocks_eq, hv]
    rfl

/-- Witness for `resolveStep_adjudication`: the challenge of `main()`,
adjudicated against the submitted block. -/
theorem resolveStep_adjudication_witness :
    (resolveStep exVerifier ⟨0, 1, 42, 0, none⟩ []).resolved_challenges =
      exVerifier.resolved_challenges ++
        [{ (⟨0, 1, 42, 0, none⟩ : FraudChallenge) with
            valid := some (adjudicate exVerifier ⟨0, 1, 42, 0, none⟩) }] :=
  (resolveStep_adjudication exVerifier ⟨0, 1, 42, 0, none⟩ []
    (by decide) (by decide)).2.1

/-! ### C2: FIFO head-of-line blocking -/

/-- C2: a clock advance triggers a resolution pass that inspects only the
front of the pending queue: if the front challenge has not yet matured, the
whole pass is a no-op apart from the time bump — the queue, the resolved log
and the block log are untouched, so no later-queued challenge is resolved in
that pass even if it has individually matured. -/
theorem advance_time_fifo_blocking (v : L1Verifier) (ticks : Nat)
    (c : FraudChallenge) (rest : List FraudChallenge)
    (hc : v.challenges = c :: rest)
    (hct : c.time ≤ v.time + ticks)
    (himm : v.time + ticks - c.time < v.challenge_timeout) :
    v.advance_time ticks = { v with time := v.time + ticks } := by
  unfold L1Verifier.advance_time
  exact process_challenges_front_immature { v with time := v.time + ticks }
    c rest hc himm

/-- Witness for `advance_time_fifo_blocking`: timeout 5, front challenge
submitted at `t = 4` (immature at `t = 5`), a second challenge submitted at
`t = 0` (individually matured at `t = 5`); the pass resolves nothing. -/
theorem advance_time_fifo_blocking_witness :
    (⟨0, [], [⟨0, 0, 9, 4, none⟩, ⟨0, 0, 8, 0, none⟩], [], 5, none⟩ :
        L1Verifier).advance_time 5 =
      { (⟨0, [], [⟨0, 0, 9, 4, none⟩, ⟨0, 0, 8, 0, none⟩], [], 5, none⟩ :
          L1Verifier) with time := 0 + 5 } :=
  advance_time_fifo_blocking _ 5 ⟨0, 0, 9, 4, none⟩ [⟨0, 0, 8, 0, none⟩]
    rfl (by decide) (by decide)

/-! ### C3: timeout boundary -/

/-- C3: a front challenge submitted at logical time `t` with timeout `T` is
adjudicated by a pass exactly when `current_time - t ≥ T`; in particular at
`current_time - t = T - 1` the pass changes nothing, so the challenge stays
pending and nothing is appended to the resolved log. -/
theorem process_challenges_timeout_boundary (v : L1Verifier)
    (c : FraudChallenge) (rest : List FraudChallenge)
    (hc : v.challenges = c :: rest) (hct : c.time ≤ v.time)
    (hT : 1 ≤ v.challenge_timeout) :
    (v.resolved_challenges.length <
        v.process_challenges.resolved_challenges.length ↔
      v.challenge_timeout ≤ v.time - c.time) ∧
    (v.time - c.time = v.challenge_timeout - 1 → v.process_challenges = v) := by
  constructor
  · constructor
    · intro hlen
      by_contra hmm
      rw [process_challenges_front_immature v c rest hc (Nat.not_le.mp hmm)]
        at hlen
      exact lt_irrefl _ hlen
    · intro hm
      have hstep : v.process_challenges =
          processLoop rest.length (resolveStep v c rest) := by
        unfold L1Verifier.process_challenges
        rw [hc]
        simp [processLoop, hc, hm]
      rw [hstep]
      obtain ⟨l, hl, -⟩ :=
        processLoop_resolved_append rest.length (resolveStep v c rest)
      rw [hl, resolveStep_resolved_eq]
      simp
  · intro hb
    apply process_challenges_front_immature v c rest hc
    omega

/-- Witness for `process_challenges_timeout_boundary`: timeout 5, challenge
submitted at `t = 0`, clock at `4 = T - 1`: the pass is a no-op. -/
theorem process_challenges_timeout_boundary_witness :
    (⟨4, [], [⟨0, 0, 9, 0, none⟩], [], 5, none⟩ : L1Verifier).process_challenges
      = ⟨4, [], [⟨0, 0, 9, 0, none⟩], [], 5, none⟩ :=
  (process_challenges_timeout_boundary _ ⟨0, 0, 9, 0, none⟩ [] rfl
    (by decide) (by decide)).2 (by decide)

/-! ### C6: the replay engine -/

theorem applyTxs_append (s : State) (l₁ l₂ : List Transaction) :
    applyTxs s (l₁ ++ l₂) = applyTxs (applyTxs s l₁) l₂ :=
  List.foldl_append _ _ _ _

theorem foldl_blocks_join (bs : List RollupBlock) (s : State) :
    bs.foldl (fun st b => applyTxs st b.transactions) s =
      applyTxs s ((bs.map RollupBlock.transactions).flatten) := by
  induction bs generalizing s with
  | nil => rfl
  | cons b bs ih =>
      calc (b :: bs).foldl (fun st b => applyTxs st b.transactions) s
          = bs.foldl (fun st b => applyTxs st b.transactions)
              (applyTxs s b.transactions) := rfl
        _ = applyTxs (applyTxs s b.transactions)
              ((bs.map RollupBlock.transactions).flatten) := ih _
        _ = applyTxs s (((b :: bs).map RollupBlock.transactions).flatten) := by
              rw [List.map_cons, List.flatten_cons, applyTxs_append]

/-- C6: with a stored baseline and an in-bounds block number `n`,
`reconstruct_state n` is exactly the baseline pushed through every
transaction of every block at a position strictly below `n`, in order,
discarding per-application success flags; and it is a pure function of the
block-log prefix and the baseline (any verifier agreeing on those agrees on
the result — in particular committed flags and all other verifier state are
irrelevant). -/
theorem reconstruct_state_spec (v : L1Verifier) (s₀ : State) (n : Nat)
    (hinit : v.initial_state = some s₀) (hn : n ≤ v.blocks.length) :
    v.reconstruct_state n =
      applyTxs s₀ (((v.blocks.take n).map RollupBlock.transactions).flatten) ∧
    ∀ w : L1Verifier, w.initial_state = v.initial_state →
      w.blocks.take n = v.blocks.take n →
      w.reconstruct_state n = v.reconstruct_state n := by
  constructor
  · unfold L1Verifier.reconstruct_state
    rw [hinit]
    exact foldl_blocks_join _ _
  · intro w hw hb
    unfold L1Verifier.reconstruct_state
    rw [hw, hb, hinit]

/-- Witness for `reconstruct_state_spec`: the verifier of `main()` after its
single block, reconstructing at block number 1. -/
theorem reconstruct_state_spec_witness :
    exVerifier.reconstruct_state 1 =
      applyTxs (deriveBaseline exBlock)
        (((exVerifier.blocks.take 1).map RollupBlock.transactions).flatten) :=
  (reconstruct_state_spec exVerifier (deriveBaseline exBlock) 1
    (by decide) (by decide)).1

/-! ### C8: the committed flag is monotone -/

/-- C8: `submit_block` appends the submitted block verbatim (so a block
created with `committed = true` enters the log committed), `submit_challenge`
does not touch the block log, and a resolution pass triggered by
`advance_time` never turns a block's `committed` flag from `false` back to
`true`: once a block is marked fraudulent it stays so forever. -/
theorem committed_flag_monotone :
    (∀ (v : L1Verifier) (block : RollupBlock),
      (v.submit_block block).blocks = v.blocks ++ [block]) ∧
    (∀ (v : L1Verifier) (c : FraudChallenge),
      (v.submit_challenge c).blocks = v.blocks) ∧
    (∀ (v : L1Verifier) (ticks i : Nat) (b b' : RollupBlock),
      v.blocks[i]? = some b →
      (v.advance_time ticks).blocks[i]? = some b' →
      b.committed = false → b'.committed = false) := by
  refine ⟨?_, fun v c => rfl, ?_⟩
  · intro v block
    unfold L1Verifier.submit_block
    by_cases h : v.blocks.isEmpty <;> simp [h]
  · intro v ticks i b b' hb hb' hf
    unfold L1Verifier.advance_time L1Verifier.process_challenges at hb'
    exact processLoop_committed_mono _ { v with time := v.time + ticks }
      i b b' hb hb' hf

/-- Witness for `committed_flag_monotone`: a block already marked fraudulent
is still marked fraudulent after a further clock advance. -/
theorem committed_flag_monotone_witness :
    ({ exBlock with committed := false } : RollupBlock).committed = false :=
  committed_flag_monotone.2.2
    ⟨0, [{ exBlock with committed := false }], [], [], 5, none⟩ 1 0
    { exBlock with committed := false } { exBlock with committed := false }
    (by decide) (by decide) rfl

/-! ### C9: the resolved log is append-only and always carries a verdict -/

/-- C9: neither submission touches the resolved-challenge log, and a
resolution pass only appends to it; every appended entry carries a verdict
`Some true` / `Some false` fixed at the moment the challenge is dequeued, and
entries already in the log are never modified (the old log is a prefix of the
new one, entry by entry). -/
theorem resolved_log_append_only :
    (∀ (v : L1Verifier) (block : RollupBlock),
      (v.submit_block block).resolved_challenges = v.resolved_challenges) ∧
    (∀ (v : L1Verifier) (c : FraudChallenge),
      (v.submit_challenge c).resolved_challenges = v.resolved_challenges) ∧
    (∀ (v : L1Verifier) (ticks : Nat), ∃ l : List FraudChallenge,
      (v.advance_time ticks).resolved_challenges =
        v.resolved_challenges ++ l ∧
      ∀ c ∈ l, (FraudChallenge.valid c).isSome = true) := by
  refine ⟨?_, fun v c => rfl, ?_⟩
  · intro v block
    unfold L1Verifier.submit_block
    by_cases h : v.blocks.isEmpty <;> simp [h]
  · intro v ticks
    unfold L1Verifier.advance_time L1Verifier.process_challenges
    exact processLoop_resolved_append _ _

/-- Witness for `resolved_log_append_only` on the `main()` scenario. -/
theorem resolved_log_append_only_witness :
    ∃ l : List FraudChallenge,
      (exVerifier.advance_time 6).resolved_challenges =
        exVerifier.resolved_challenges ++ l ∧
      ∀ c ∈ l, (FraudChallenge.valid c).isSome = true :=
  resolved_log_append_only.2.2 exVerifier 6

/-! ### C7: baseline reversal -/

/-- "The claimed post-state arises from applying the block's transactions in
order to some starting state, with every application succeeding": fold
`apply_tx` across the list, failing out if any application fails. -/
def applyAllOk : State → List Transaction → Option State
  | s, [] => some s
  | s, tx :: rest =>
      let r := s.apply_tx tx
      if r.1 then applyAllOk r.2 rest else none

theorem applyAllOk_cons {s post : State} {tx : Transaction}
    {txs : List Transaction} (h : applyAllOk s (tx :: txs) = some post) :
    (s.apply_tx tx).1 = true ∧ applyAllOk (s.apply_tx tx).2 txs = some post := by
  unfold applyAllOk at h
  by_cases h1 : (s.apply_tx tx).1 = true
  · exact ⟨h1, by simpa [h1] using h⟩
  · simp [h1] at h

theorem option_some_of_isSome_getD {o : Option Nat} {v : Nat}
    (h1 : o.isSome = true) (h2 : o.getD 0 = v) : o = some v := by
  cases o with
  | none => simp at h1
  | some w => simpa using h2

theorem State.eq_of_balances {s₁ s₂ : State} (h : s₁.balances = s₂.balances) :
    s₁ = s₂ := by
  cases s₁; cases s₂; cases h; rfl


/-- The key step of the baseline-reversal argument: if `tx` applies
successfully to `s₀` and `m` agrees with the resulting post-state on every
effective balance while containing at least its keys, then undoing `tx` on `m`
(the `submit_block` reversal step) yields a state on which `tx` re-applies
successfully and reproduces `m` exactly; moreover the undone state agrees with
`s₀` on every effective balance and contains at least its keys. -/
theorem undoTx_apply_exact (s₀ : State) (tx : Transaction) (m : State)
    (hok : tx.amount ≤ (hmGet s₀.balances tx.«from»).getD 0)
    (hsup : ∀ k, (hmGet (s₀.apply_tx tx).2.balances k).isSome = true →
      (hmGet m.balances k).isSome = true)
    (hext : ∀ k, (hmGet m.balances k).getD 0 =
      (hmGet (s₀.apply_tx tx).2.balances k).getD 0) :
    (undoTx m tx).apply_tx tx = (true, m) ∧
    (∀ k, (hmGet (undoTx m tx).balances k).getD 0 =
      (hmGet s₀.balances k).getD 0) ∧
    (∀ k, (hmGet s₀.balances k).isSome = true →
      (hmGet (undoTx m tx).balances k).isSome = true) := by
  by_cases hft : tx.«from» = tx.«to»
  · -- self-transfer: the post-state is the pre-state with the sender entry
    -- forced to be present
    have hB2 : (s₀.apply_tx tx).2.balances =
        hmInsert s₀.balances tx.«from» ((hmGet s₀.balances tx.«from»).getD 0) := by
      rw [apply_tx_of_le s₀ tx hok]
      dsimp only
      rw [← hft, hmGet_hmInsert_self, Option.getD_some,
        hmInsert_hmInsert_self, Nat.sub_add_cancel hok]
    have hMf : hmGet m.balances tx.«from» =
        some ((hmGet s₀.balances tx.«from»).getD 0) := by
      apply option_some_of_isSome_getD
      · apply hsup
        rw [hB2, hmGet_hmInsert_self]
        rfl
      · rw [hext, hB2, hmGet_hmInsert_self, Option.getD_some]
    have hU : (undoTx m tx).balances = m.balances := by
      unfold undoTx
      rw [← hft, hMf]
      dsimp only
      rw [hmGet_hmInsert_self, Option.getD_some,
        hmInsert_hmInsert_self, Nat.sub_add_cancel hok, hmInsert_eq_self _ hMf]
    have hUm : undoTx m tx = m := State.eq_of_balances hU
    rw [hUm]
    have hok' : tx.amount ≤ (hmGet m.balances tx.«from»).getD 0 := by
      rw [hMf]; exact hok
    refine ⟨?_, ?_, ?_⟩
    · rw [apply_tx_of_le m tx hok']
      rw [Prod.mk.injEq]
      refine ⟨rfl, ?_⟩
      apply Eq.symm
      apply State.eq_of_balances
      dsimp only
      rw [← hft, hmGet_hmInsert_self, Option.getD_some, hmInsert_hmInsert_self,
        hMf, Option.getD_some, Nat.sub_add_cancel hok, hmInsert_eq_self _ hMf]
    · intro k
      rw [hext k, hB2]
      by_cases hk : tx.«from» = k
      · rw [← hk, hmGet_hmInsert_self, Option.getD_some]
      · rw [hmGet_hmInsert_ne _ _ hk]
    · intro k hk
      apply hsup
      rw [hB2]
      exact isSome_hmGet_hmInsert _ _ _ _ hk
  · -- distinct sender and receiver
    have hB1t : hmGet (hmInsert s₀.balances tx.«from»
        ((hmGet s₀.balances tx.«from»).getD 0 - tx.amount)) tx.«to» =
        hmGet s₀.balances tx.«to» := hmGet_hmInsert_ne _ _ hft
    have hB2 : (s₀.apply_tx tx).2.balances =
        hmInsert (hmInsert s₀.balances tx.«from»
            ((hmGet s₀.balances tx.«from»).getD 0 - tx.amount)) tx.«to»
          ((hmGet s₀.balances tx.«to»).getD 0 + tx.amount) := by
      rw [apply_tx_of_le s₀ tx hok]
      dsimp only
      rw [hB1t]
    have hMt : hmGet m.balances tx.«to» =
        some ((hmGet s₀.balances tx.«to»).getD 0 + tx.amount) := by
      apply option_some_of_isSome_getD
      · apply hsup
        rw [hB2, hmGet_hmInsert_self]
        rfl
      · rw [hext, hB2, hmGet_hmInsert_self, Option.getD_some]
    have hMf : hmGet m.balances tx.«from» =
        some ((hmGet s₀.balances tx.«from»).getD 0 - tx.amount) := by
      have htf : tx.«to» ≠ tx.«from» := fun h => hft h.symm
      apply option_some_of_isSome_getD
      · apply hsup
        rw [hB2, hmGet_hmInsert_ne _ _ htf, hmGet_hmInsert_self]
        rfl
      · rw [hext, hB2, hmGet_hmInsert_ne _ _ htf, hmGet_hmInsert_self,
          Option.getD_some]
    have htf : tx.«to» ≠ tx.«from» := fun h => hft h.symm
    have hU : (undoTx m tx).balances =
        hmInsert (hmInsert m.balances tx.«to» ((hmGet s₀.balances tx.«to»).getD 0))
          tx.«from» ((hmGet s₀.balances tx.«from»).getD 0) := by
      unfold undoTx
      rw [hMt]
      dsimp only
      rw [Nat.add_sub_cancel, hmGet_hmInsert_ne _ _ htf, hMf, Option.getD_some,
        Nat.sub_add_cancel hok]
    refine ⟨?_, ?_, ?_⟩
    · have hUf : hmGet (undoTx m tx).balances tx.«from» =
          some ((hmGet s₀.balances tx.«from»).getD 0) := by
        rw [hU, hmGet_hmInsert_self]
      have hok' : tx.amount ≤ (hmGet (undoTx m tx).balances tx.«from»).getD 0 := by
        rw [hUf]; exact hok
      rw [apply_tx_of_le _ tx hok']
      rw [Prod.mk.injEq]
      refine ⟨rfl, ?_⟩
      apply Eq.symm
      apply State.eq_of_balances
      dsimp only
      rw [hUf, Option.getD_some, hU, hmInsert_hmInsert_self]
      -- now : hmInsert (hmInsert (hmInsert M t tb) f (sb - a)) t (get .. t + a)
      have h1 : hmInsert (hmInsert m.balances tx.«to»
            ((hmGet s₀.balances tx.«to»).getD 0)) tx.«from»
          ((hmGet s₀.balances tx.«from»).getD 0 - tx.amount) =
          hmInsert m.balances tx.«to» ((hmGet s₀.balances tx.«to»).getD 0) := by
        apply hmInsert_eq_self _
        rw [hmGet_hmInsert_ne _ _ htf]
        exact hMf
      rw [h1]
      rw [hmGet_hmInsert_self, Option.getD_some, hmInsert_hmInsert_self]
      exact (hmInsert_eq_self _ hMt).symm
    · intro k
      rw [hU]
      by_cases hkf : tx.«from» = k
      · rw [← hkf, hmGet_hmInsert_self, Option.getD_some]
      · rw [hmGet_hmInsert_ne _ _ hkf]
        by_cases hkt : tx.«to» = k
        · rw [← hkt, hmGet_hmInsert_self, Option.getD_some]
        · rw [hmGet_hmInsert_ne _ _ hkt, hext k, hB2,
            hmGet_hmInsert_ne _ _ hkt, hmGet_hmInsert_ne _ _ hkf]
    · intro k hk
      rw [hU]
      by_cases hkf : tx.«from» = k
      · rw [← hkf, hmGet_hmInsert_self]; rfl
      · rw [hmGet_hmInsert_ne _ _ hkf]
        by_cases hkt : tx.«to» = k
        · rw [← hkt, hmGet_hmInsert_self]; rfl
        · rw [hmGet_hmInsert_ne _ _ hkt]
          apply hsup
          rw [hB2]
          apply isSome_hmGet_hmInsert
          apply isSome_hmGet_hmInsert
          exact hk

/-- Folding the `submit_block` reversal over an all-successful transaction
list and replaying forward reproduces the post-state exactly. -/
theorem applyAllOk_undo_replay (txs : List Transaction) :
    ∀ s₀ post : State, applyAllOk s₀ txs = some post →
      applyTxs (txs.reverse.foldl undoTx post) txs = post ∧
      (∀ k, (hmGet (txs.reverse.foldl undoTx post).balances k).getD 0 =
        (hmGet s₀.balances k).getD 0) ∧
      (∀ k, (hmGet s₀.balances k).isSome = true →
        (hmGet (txs.reverse.foldl undoTx post).balances k).isSome = true) := by
  induction txs with
  | nil =>
      intro s₀ post h
      cases h
      exact ⟨rfl, fun k => rfl, fun k hk => hk⟩
  | cons tx rest ih =>
      intro s₀ post h
      obtain ⟨h1, h2⟩ := applyAllOk_cons h
      have hok : tx.amount ≤ (hmGet s₀.balances tx.«from»).getD 0 :=
        (apply_tx_fst_iff s₀ tx).mp h1
      obtain ⟨ihplay, ihext, ihsup⟩ := ih (s₀.apply_tx tx).2 post h2
      have hfold : (tx :: rest).reverse.foldl undoTx post =
          undoTx (rest.reverse.foldl undoTx post) tx := by
        rw [List.reverse_cons, List.foldl_append]
        rfl
      obtain ⟨happly, hext, hsup⟩ :=
        undoTx_apply_exact s₀ tx (rest.reverse.foldl undoTx post) hok ihsup ihext
      rw [hfold]
      refine ⟨?_, hext, hsup⟩
      show applyTxs
        ((undoTx (rest.reverse.foldl undoTx post) tx)) (tx :: rest) = post
      unfold applyTxs
      rw [List.foldl_cons, happly]
      exact ihplay

/-- C7 (amended): for a block whose claimed post-state arises from applying
its transactions in order to some starting state **with every application
succeeding**, the baseline derived by `submit_block` (reverse-order undo,
receiver debit floored at zero), replayed forward through the block's
transactions with `apply_tx`, reproduces the claimed post-state's balances map
exactly. -/
theorem baseline_reversal_roundtrip (block : RollupBlock) (s₀ : State)
    (h : applyAllOk s₀ block.transactions = some block.post_state) :
    applyTxs (deriveBaseline block) block.transactions = block.post_state :=
  (applyAllOk_undo_replay block.transactions s₀ block.post_state h).1

/-- Counterexample to C7 as stated: "consistent" read as "the post-state
actually arises from applying the block's transactions in order to some
starting state" (with failed applications silently skipped, as `apply_tx` use
does) is not enough.  The `main()` block contains a failing transaction, its
post-state does arise from `exState` by applying its transactions in order,
yet the derived baseline replayed forward does not reproduce the post-state
(neither structurally nor under Rust `==`). -/
theorem baseline_reversal_counterexample :
    applyTxs exState exBlock.transactions = exBlock.post_state ∧
    applyTxs (deriveBaseline exBlock) exBlock.transactions ≠ exBlock.post_state ∧
    hmEq (applyTxs (deriveBaseline exBlock) exBlock.transactions).balances
      exBlock.post_state.balances = false :=
  ⟨by decide, by decide, by decide⟩

/-- A first block whose transactions all apply successfully, for the
`baseline_reversal_roundtrip` witness. -/
def okBlock : RollupBlock := ⟨0, [exTx1], applyTxs exState [exTx1], true⟩

/-- Witness for `baseline_reversal_roundtrip` on `okBlock`. -/
theorem baseline_reversal_roundtrip_witness :
    applyTxs (deriveBaseline okBlock) okBlock.transactions = okBlock.post_state :=
  baseline_reversal_roundtrip okBlock exState (by decide)
